import Mathlib

/-!
Verification model of `mql_client.py`, a file-based polling/IPC client.

Pure functions below are shallow embeddings of the corresponding Python
methods: each poll-cycle body becomes a function from the watcher's state
and the raw text read from disk to the new state plus the events emitted
during that cycle.  `json.loads` is modelled by an explicit `parse`
parameter returning `Option` (where `none` models an uncaught decode
exception); file existence and write success in the command path are
modelled by time-indexed boolean predicates.
-/

namespace MqlClient

/-! ## Definitions: shallow embedding of the watchers and the command dispatcher -/

/-- Models Python `len(text.strip()) == 0`: the text is empty after
stripping whitespace from both ends, i.e. it is all whitespace. -/
def strippedEmpty (s : String) : Bool :=
  s.data.all Char.isWhitespace

/-- Numeric value of a decimal digit character (Python `int` on one digit). -/
def digitVal (c : Char) : Nat := c.toNat - 48

/-- Value of a decimal digit list, most significant first: models Python
`int(s)` on a string of digits. -/
def decValL (cs : List Char) : Nat :=
  cs.foldl (fun n c => 10 * n + digitVal c) 0

/-- Models Python `int(millis)` on a digit-string key. -/
def decVal (s : String) : Nat := decValL s.data

/-- Lexicographic comparison of character lists by code point:
the order Python uses to compare strings in `sorted`. -/
def lexLe : List Char → List Char → Bool
  | [], _ => true
  | _ :: _, [] => false
  | a :: as, b :: bs =>
    if a.toNat < b.toNat then true
    else if b.toNat < a.toNat then false
    else lexLe as bs

/-- String comparison as Python `sorted` performs it on dict keys. -/
def keyLe (s t : String) : Bool := lexLe s.data t.data

/-- Insert one key/value pair into a key-sorted association list. -/
def insertByKey {α : Type} (p : String × α) :
    List (String × α) → List (String × α)
  | [] => [p]
  | q :: rest =>
    if keyLe p.1 q.1 then p :: q :: rest else q :: insertByKey p rest

/-- Models Python `sorted(data.items())` on a dict with (unique) string
keys: sort the pairs by key in lexicographic string order. -/
def sortByKey {α : Type} : List (String × α) → List (String × α)
  | [] => []
  | p :: rest => insertByKey p (sortByKey rest)

/-- State of the messages watcher: `_last_messages_millis` and
`_last_messages_str` in the source. -/
structure MsgState where
  last_messages_millis : Nat
  last_messages_str : String
  deriving Repr, DecidableEq

/-- The inner loop of `check_messages`: walk the (key-sorted) items, and
for each key whose numeric value exceeds the running maximum, record the
new maximum and emit the message.  Returns the final maximum and the
emitted `(timestamp, message)` pairs in emission order. -/
def process_messages {α : Type} (last : Nat) :
    List (String × α) → Nat × List (Nat × α)
  | [] => (last, [])
  | (k, m) :: rest =>
    if decVal k > last then
      let r := process_messages (decVal k) rest
      (r.1, (decVal k, m) :: r.2)
    else
      process_messages last rest

/-- Result of one `check_messages` poll cycle. -/
structure MsgCycleOut (α : Type) where
  state : MsgState
  delivered : List (Nat × α)
  crashed : Bool
  deriving Repr

/-- One body execution of the `check_messages` polling loop, given the raw
text read from the messages file.  `parse` models `json.loads` (returning
`none` when it would raise); `handlerPresent` models
`self.event_handler is not None`.  `crashed = true` models an uncaught
exception, which kills the polling thread. -/
def check_messages_cycle {α : Type} (handlerPresent : Bool)
    (parse : String → Option (List (String × α)))
    (st : MsgState) (text : String) : MsgCycleOut α :=
  if strippedEmpty text || text == st.last_messages_str then
    ⟨st, [], false⟩
  else
    match parse text with
    | none => ⟨{ st with last_messages_str := text }, [], true⟩
    | some data =>
      let r := process_messages st.last_messages_millis (sortByKey data)
      ⟨⟨r.1, text⟩, if handlerPresent then r.2 else [], false⟩

/-- A run of the messages watcher over a sequence of raw reads, stopping
when a cycle crashes.  Returns the final state, all delivered
`(timestamp, message)` pairs in delivery order, and the crash flag. -/
def check_messages_run {α : Type} (handlerPresent : Bool)
    (parse : String → Option (List (String × α)))
    (st : MsgState) : List String → MsgState × List (Nat × α) × Bool
  | [] => (st, [], false)
  | t :: ts =>
    let out := check_messages_cycle handlerPresent parse st t
    if out.crashed then (out.state, out.delivered, true)
    else
      let r := check_messages_run handlerPresent parse out.state ts
      (r.1, out.delivered ++ r.2.1, r.2.2)

/-- Maximum numeric key of a messages snapshot, starting from 0: the loop
of `load_messages`. -/
def msgs_max_millis {α : Type} (data : List (String × α)) : Nat :=
  data.foldl (fun l p => max l (decVal p.1)) 0

/-- Models `load_messages`: read the persisted messages file; when non-empty,
seed `_last_messages_str` with the raw text and `_last_messages_millis`
with the maximum numeric key.  `none` models a crash of `json.loads`
during startup. -/
def load_messages {α : Type}
    (parse : String → Option (List (String × α)))
    (text : String) : Option MsgState :=
  if text.length > 0 then
    (parse text).map fun data => ⟨msgs_max_millis data, text⟩
  else
    some ⟨0, ""⟩

/-- Membership of a key in an association list: Python `k in d` on a dict. -/
def hasKey {β : Type} (k : String) (l : List (String × β)) : Bool :=
  l.any fun p => p.1 == k

/-- Parsed content of the orders file: the account_info entry and the
orders entry (a map keyed by order id). -/
structure OrdersData (β : Type) where
  account_info : β
  orders : List (String × β)
  deriving Repr, DecidableEq

/-- State of the open-orders watcher. -/
structure OrdersState (β : Type) where
  last_open_orders_str : String
  account_info : β
  open_orders : List (String × β)
  deriving Repr, DecidableEq

/-- Result of one `check_open_orders` poll cycle.  `removed`/`added` are
the order ids printed as "Order removed"/"New order" (emitted only when
`verbose`); `fired` records whether `on_order_event` was invoked;
`stored` is the snapshot written to the persistence file, when any. -/
structure OrdersCycleOut (β : Type) where
  state : OrdersState β
  removed : List String
  added : List String
  fired : Bool
  stored : Option (OrdersData β)
  crashed : Bool
  deriving Repr

/-- One body execution of the `check_open_orders` polling loop.  `parse`
models `json.loads` (`none` = raise); a raised decode error is uncaught,
so it sets `crashed` after `_last_open_orders_str` has already been
updated. -/
def check_open_orders_cycle {β : Type} (verbose handlerPresent loadFromFile : Bool)
    (parse : String → Option (OrdersData β))
    (st : OrdersState β) (text : String) : OrdersCycleOut β :=
  if strippedEmpty text || text == st.last_open_orders_str then
    ⟨st, [], [], false, none, false⟩
  else
    match parse text with
    | none =>
      ⟨{ st with last_open_orders_str := text }, [], [], false, none, true⟩
    | some data =>
      let removedIds :=
        (st.open_orders.filter fun p => !hasKey p.1 data.orders).map Prod.fst
      let addedIds :=
        (data.orders.filter fun p => !hasKey p.1 st.open_orders).map Prod.fst
      let newEvent := !removedIds.isEmpty || !addedIds.isEmpty
      ⟨⟨text, data.account_info, data.orders⟩,
        if verbose then removedIds else [],
        if verbose then addedIds else [],
        handlerPresent && newEvent,
        if loadFromFile then some data else none,
        false⟩

/-- Per-symbol market record: the fields `on_tick` forwards. -/
structure TickRec (π : Type) where
  bid : π
  ask : π
  deriving Repr, DecidableEq

/-- State of the market-data watcher. -/
structure MarketState (π : Type) where
  last_market_data_str : String
  market_data : List (String × TickRec π)
  last_market_data : List (String × TickRec π)
  deriving Repr, DecidableEq

/-- Result of one `check_market_data` poll cycle; `ticks` lists the
`on_tick(symbol, bid, ask)` calls in order. -/
structure MarketCycleOut (π : Type) where
  state : MarketState π
  ticks : List (String × π × π)
  crashed : Bool
  deriving Repr

/-- The per-symbol dispatch condition of `check_market_data`:
`symbol not in self._last_market_data or
 self.market_data[symbol] != self._last_market_data[symbol]`. -/
def tick_changed {π : Type} [DecidableEq π]
    (last : List (String × TickRec π)) (s : String) (v : TickRec π) : Bool :=
  match List.lookup s last with
  | none => true
  | some w => decide (v ≠ w)

/-- One body execution of the `check_market_data` polling loop.  The
snapshot is an association list with the (unique) keys of the parsed JSON
object in iteration order. -/
def check_market_data_cycle {π : Type} [DecidableEq π] (handlerPresent : Bool)
    (parse : String → Option (List (String × TickRec π)))
    (st : MarketState π) (text : String) : MarketCycleOut π :=
  if strippedEmpty text || text == st.last_market_data_str then
    ⟨st, [], false⟩
  else
    match parse text with
    | none => ⟨{ st with last_market_data_str := text }, [], true⟩
    | some data =>
      ⟨⟨text, data, data⟩,
        if handlerPresent then
          (data.filter fun p => tick_changed st.last_market_data p.1 p.2).map
            fun p => (p.1, p.2.bid, p.2.ask)
        else [],
        false⟩

/-- Per-(symbol, timeframe) bar record: the fields `on_bar_data`
forwards. -/
structure BarRec (π : Type) where
  time : π
  op : π
  high : π
  low : π
  close : π
  tick_volume : π
  deriving Repr, DecidableEq

/-- State of the bar-data watcher. -/
structure BarState (π : Type) where
  last_bar_data_str : String
  bar_data : List (String × BarRec π)
  last_bar_data : List (String × BarRec π)
  deriving Repr, DecidableEq

/-- Result of one `check_bar_data` poll cycle; events carry
`(symbol, timeframe, record)`. -/
structure BarCycleOut (π : Type) where
  state : BarState π
  bars : List (String × String × BarRec π)
  crashed : Bool
  deriving Repr

/-- The per-key dispatch condition of `check_bar_data`. -/
def bar_changed {π : Type} [DecidableEq π]
    (last : List (String × BarRec π)) (s : String) (v : BarRec π) : Bool :=
  match List.lookup s last with
  | none => true
  | some w => decide (v ≠ w)

/-- The event loop of `check_bar_data`: for each changed key, split it on
`'_'` into symbol and timeframe and emit `on_bar_data`; a key that does
not split into exactly two parts raises out of the unpacking assignment
(uncaught). -/
def bar_events {π : Type} [DecidableEq π]
    (last : List (String × BarRec π)) :
    List (String × BarRec π) → List (String × String × BarRec π) × Bool
  | [] => ([], false)
  | (st, v) :: rest =>
    if bar_changed last st v then
      match st.splitOn "_" with
      | [symbol, tf] =>
        let r := bar_events last rest
        ((symbol, tf, v) :: r.1, r.2)
      | _ => ([], true)
    else bar_events last rest

/-- One body execution of the `check_bar_data` polling loop. -/
def check_bar_data_cycle {π : Type} [DecidableEq π] (handlerPresent : Bool)
    (parse : String → Option (List (String × BarRec π)))
    (st : BarState π) (text : String) : BarCycleOut π :=
  if strippedEmpty text || text == st.last_bar_data_str then
    ⟨st, [], false⟩
  else
    match parse text with
    | none => ⟨{ st with last_bar_data_str := text }, [], true⟩
    | some data =>
      if handlerPresent then
        let r := bar_events st.last_bar_data data
        if r.2 then ⟨⟨text, data, st.last_bar_data⟩, r.1, true⟩
        else ⟨⟨text, data, data⟩, r.1, false⟩
      else ⟨⟨text, data, data⟩, [], false⟩

/-- Python dict assignment `d[k] = v` on an association list. -/
def updKey {δ : Type} (k : String) (v : δ) :
    List (String × δ) → List (String × δ)
  | [] => [(k, v)]
  | p :: rest => if p.1 == k then (k, v) :: rest else p :: updKey k v rest

/-- State of the historic-data/trades watcher. -/
structure HistState (δ θ : Type) where
  last_historic_data_str : String
  last_historic_trades_str : String
  historic_data : List (String × δ)
  historic_trades : θ
  deriving Repr

/-- The `for st in data.keys()` loop of the historic-data branch: store
each entry under its key, and with a handler present split the key on
`'_'` into symbol and timeframe and emit `on_historic_data`; a key that
does not split into exactly two parts raises (uncaught) out of the
unpacking assignment.  Returns the updated store, the emitted events and
the crash flag. -/
def hd_process {δ : Type} (handlerPresent : Bool)
    (hd : List (String × δ)) :
    List (String × δ) → List (String × δ) × List (String × String × δ) × Bool
  | [] => (hd, [], false)
  | (st, v) :: rest =>
    let hd1 := updKey st v hd
    if handlerPresent then
      match st.splitOn "_" with
      | [symbol, tf] =>
        let r := hd_process handlerPresent hd1 rest
        (r.1, (symbol, tf, v) :: r.2.1, r.2.2)
      | _ => (hd1, [], true)
    else
      hd_process handlerPresent hd1 rest

/-- Result of one `check_historic_data` poll cycle. -/
structure HistCycleOut (δ θ : Type) where
  state : HistState δ θ
  hd_events : List (String × String × δ)
  ht_event : Bool
  removed_hd : Bool
  removed_ht : Bool
  crashed : Bool

/-- The historic-trades branch of `check_historic_data`.  Note that the
dispatch `self.event_handler.on_historic_trades()` is not guarded by an
`is not None` check: with no handler the attribute access raises
(uncaught), after the last-seen string and the trades store were already
updated and before the source file is removed.  Returns
(state, event fired, file removed, crashed). -/
def ht_branch {δ θ : Type} (handlerPresent : Bool)
    (parseHT : String → Option θ) (st : HistState δ θ)
    (textHT : String) : HistState δ θ × Bool × Bool × Bool :=
  if !strippedEmpty textHT && textHT != st.last_historic_trades_str then
    let st1 := { st with last_historic_trades_str := textHT }
    match parseHT textHT with
    | none => (st1, false, false, true)
    | some d =>
      let st2 := { st1 with historic_trades := d }
      if handlerPresent then (st2, true, true, false)
      else (st2, false, false, true)
  else (st, false, false, false)

/-- One body execution of the `check_historic_data` polling loop, given
the raw texts read from the historic-data and historic-trades files.  The
historic-data branch runs first; the trades branch runs only if the first
branch did not raise. -/
def check_historic_data_cycle {δ θ : Type} (handlerPresent : Bool)
    (parseHD : String → Option (List (String × δ)))
    (parseHT : String → Option θ)
    (st : HistState δ θ) (textHD textHT : String) : HistCycleOut δ θ :=
  let afterHD : HistState δ θ × List (String × String × δ) × Bool × Bool :=
    if !strippedEmpty textHD && textHD != st.last_historic_data_str then
      let st1 := { st with last_historic_data_str := textHD }
      match parseHD textHD with
      | none => (st1, [], false, true)
      | some data =>
        let r := hd_process handlerPresent st1.historic_data data
        let st2 := { st1 with historic_data := r.1 }
        if r.2.2 then (st2, r.2.1, false, true)
        else (st2, r.2.1, true, false)
    else (st, [], false, false)
  if afterHD.2.2.2 then
    ⟨afterHD.1, afterHD.2.1, false, afterHD.2.2.1, false, true⟩
  else
    let r := ht_branch handlerPresent parseHT afterHD.1 textHT
    ⟨r.1, afterHD.2.1, r.2.1, afterHD.2.2.1, r.2.2.1, r.2.2.2⟩

/-- The slot pool size `self.num_command_files` in the source. -/
def num_command_files : Nat := 50

/-- The wrap bound of `(self.command_id + 1) % 100000`. -/
def command_id_wrap : Nat := 100000

/-- The increment `self.command_id = (self.command_id + 1) % 100000`. -/
def next_command_id (cid : Nat) : Nat := (cid + 1) % command_id_wrap

/-- The encoded command line the source formats as an f-string:
angle-colon, id, pipe, command, pipe, content, colon-angle. -/
def encode_command (id : Nat) (command content : String) : String :=
  "<:" ++ toString id ++ "|" ++ command ++ "|" ++ content ++ ":>"

/-- The `for i in range(self.num_command_files)` scan, starting at index
`i` with `n` indices left: skip slots whose file exists; at the first
non-existing slot try the write — success returns that slot and stops,
failure logs (`print_exc`) and moves on to the next index.  Returns the
claimed slot (if any) and the number of logged write failures. -/
def scan_from (occ wok : Nat → Bool) (i : Nat) : Nat → Option Nat × Nat
  | 0 => (none, 0)
  | n + 1 =>
    if occ i then scan_from occ wok (i + 1) n
    else if wok i then (some i, 0)
    else
      let r := scan_from occ wok (i + 1) n
      (r.1, r.2 + 1)

/-- The `while now < end_time` retry loop of `send_command`: each pass
scans the slot pool at the current time; on success it stops, otherwise
it sleeps `delay` and retries.  Returns `(time, slot)` of the successful
write (or `none` when the deadline was reached), and the total number of
logged write failures. -/
def send_loop (occ wok : Nat → Nat → Bool) (n delay deadline : Nat)
    (hdelay : 0 < delay) (now : Nat) : Option (Nat × Nat) × Nat :=
  if h : now < deadline then
    match scan_from (occ now) (wok now) 0 n with
    | (some i, l) => (some (now, i), l)
    | (none, l) =>
      let r := send_loop occ wok n delay deadline hdelay (now + delay)
      (r.1, l + r.2)
  else (none, 0)
  termination_by deadline - now
  decreasing_by omega

/-- Result of one `send_command` call: the counter value after the call,
the performed slot write (time, slot index, line) when one succeeded,
and the number of logged write failures.  No exception escapes to the
caller and at most one slot file is ever written. -/
structure SendResult where
  command_id : Nat
  write : Option (Nat × Nat × String)
  logs : Nat
  deriving Repr, DecidableEq

/-- Models `send_command(command, content)`: increment the id modulo the wrap
bound, then retry the slot scan until a write succeeds or the deadline
`now0 + maxRetry` passes.  The whole call runs under `self.lock`. -/
def send_command (occ wok : Nat → Nat → Bool) (n delay maxRetry now0 : Nat)
    (hdelay : 0 < delay) (cid : Nat) (command content : String) : SendResult :=
  let cid1 := next_command_id cid
  let r := send_loop occ wok n delay (now0 + maxRetry) hdelay now0
  ⟨cid1, r.1.map fun p => (p.1, p.2, encode_command cid1 command content), r.2⟩

/-- The settle delay `sleep(0.5)` after sending `RESET_COMMAND_IDS`, in milliseconds. -/
def reset_settle_ms : Nat := 500

/-- Models `reset_command_ids`: set the counter to 0, send `RESET_COMMAND_IDS`
(which increments the freshly reset counter), then settle. -/
def reset_command_ids (occ wok : Nat → Nat → Bool)
    (n delay maxRetry now0 : Nat) (hdelay : 0 < delay) : SendResult × Nat :=
  (send_command occ wok n delay maxRetry now0 hdelay 0 "RESET_COMMAND_IDS" "",
    reset_settle_ms)

/-- Counter values produced by `k` sequential `send_command` calls
starting from counter value `cid`. -/
def command_ids_from (cid : Nat) : Nat → List Nat
  | 0 => []
  | k + 1 => next_command_id cid :: command_ids_from (next_command_id cid) k

/-- A decimal digit character (code points 48–57), the only characters
`int` accepts in the keys this watcher handles. -/
def isDigitChar (c : Char) : Bool := 48 ≤ c.toNat && c.toNat ≤ 57

/-! ## Theorems: supporting lemmas, then the claims -/

theorem process_messages_last_le {α : Type} (last : Nat) :
    ∀ items : List (String × α), last ≤ (process_messages last items).1 := by
  intro items
  induction items generalizing last with
  | nil => simp [process_messages]
  | cons p rest ih =>
    obtain ⟨k, m⟩ := p
    by_cases h : decVal k > last
    · simp only [process_messages, if_pos h]
      exact Nat.le_trans (Nat.le_of_lt h) (ih (decVal k))
    · simpa only [process_messages, if_neg h] using ih last

theorem process_messages_delivered_gt {α : Type} (last : Nat)
    (items : List (String × α)) :
    ∀ d ∈ (process_messages last items).2, last < d.1 := by
  induction items generalizing last with
  | nil => simp [process_messages]
  | cons p rest ih =>
    obtain ⟨k, m⟩ := p
    by_cases h : decVal k > last
    · simp only [process_messages, if_pos h, List.mem_cons]
      rintro d (rfl | hd)
      · exact h
      · exact Nat.lt_trans h (ih (decVal k) d hd)
    · simpa only [process_messages, if_neg h] using ih last

theorem process_messages_delivered_le_final {α : Type} (last : Nat)
    (items : List (String × α)) :
    ∀ d ∈ (process_messages last items).2,
      d.1 ≤ (process_messages last items).1 := by
  induction items generalizing last with
  | nil => simp [process_messages]
  | cons p rest ih =>
    obtain ⟨k, m⟩ := p
    by_cases h : decVal k > last
    · simp only [process_messages, if_pos h, List.mem_cons]
      rintro d (rfl | hd)
      · exact process_messages_last_le (decVal k) rest
      · exact ih (decVal k) d hd
    · simpa only [process_messages, if_neg h] using ih last

/-- The delivered timestamps of one cycle are strictly increasing. -/
theorem process_messages_chain {α : Type} (last : Nat)
    (items : List (String × α)) :
    List.Chain' (fun a b : Nat × α => a.1 < b.1)
      (process_messages last items).2 := by
  induction items generalizing last with
  | nil => simp [process_messages]
  | cons p rest ih =>
    obtain ⟨k, m⟩ := p
    by_cases h : decVal k > last
    · simp only [process_messages, if_pos h]
      refine List.chain'_cons'.mpr ⟨?_, ih (decVal k)⟩
      intro d hd
      exact process_messages_delivered_gt (decVal k) rest d
        (List.mem_of_mem_head? hd)
    · simpa only [process_messages, if_neg h] using ih last

theorem check_messages_cycle_last_le {α : Type} (hp : Bool)
    (parse : String → Option (List (String × α))) (st : MsgState)
    (text : String) :
    st.last_messages_millis ≤
      (check_messages_cycle hp parse st text).state.last_messages_millis := by
  unfold check_messages_cycle
  by_cases h : (strippedEmpty text || text == st.last_messages_str) = true
  · simp [h]
  · simp only [Bool.not_eq_true] at h
    rw [if_neg (by simp [h])]
    match parse text with
    | none => simp
    | some data => exact process_messages_last_le _ _

theorem check_messages_cycle_delivered_gt {α : Type} (hp : Bool)
    (parse : String → Option (List (String × α))) (st : MsgState)
    (text : String) :
    ∀ d ∈ (check_messages_cycle hp parse st text).delivered,
      st.last_messages_millis < d.1 := by
  unfold check_messages_cycle
  by_cases h : (strippedEmpty text || text == st.last_messages_str) = true
  · simp [h]
  · rw [if_neg h]
    match parse text with
    | none => simp
    | some data =>
      intro d hd
      simp only at hd
      cases hp with
      | false => simp at hd
      | true => exact process_messages_delivered_gt _ _ d hd

theorem check_messages_cycle_delivered_le_final {α : Type} (hp : Bool)
    (parse : String → Option (List (String × α))) (st : MsgState)
    (text : String) :
    ∀ d ∈ (check_messages_cycle hp parse st text).delivered,
      d.1 ≤ (check_messages_cycle hp parse st text).state.last_messages_millis := by
  unfold check_messages_cycle
  by_cases h : (strippedEmpty text || text == st.last_messages_str) = true
  · simp [h]
  · rw [if_neg h]
    match parse text with
    | none => simp
    | some data =>
      intro d hd
      simp only at hd ⊢
      cases hp with
      | false => simp at hd
      | true => exact process_messages_delivered_le_final _ _ d hd

theorem check_messages_cycle_chain {α : Type} (hp : Bool)
    (parse : String → Option (List (String × α))) (st : MsgState)
    (text : String) :
    List.Chain' (fun a b : Nat × α => a.1 < b.1)
      (check_messages_cycle hp parse st text).delivered := by
  unfold check_messages_cycle
  by_cases h : (strippedEmpty text || text == st.last_messages_str) = true
  · simp [h]
  · rw [if_neg h]
    match parse text with
    | none => simp
    | some data =>
      cases hp with
      | false => simp
      | true => exact process_messages_chain _ _

theorem check_messages_run_last_le {α : Type} (hp : Bool)
    (parse : String → Option (List (String × α))) (st : MsgState)
    (texts : List String) :
    st.last_messages_millis ≤
      (check_messages_run hp parse st texts).1.last_messages_millis := by
  induction texts generalizing st with
  | nil => simp [check_messages_run]
  | cons t ts ih =>
    simp only [check_messages_run]
    by_cases h : (check_messages_cycle hp parse st t).crashed = true
    · simpa [h] using check_messages_cycle_last_le hp parse st t
    · rw [if_neg h]
      exact Nat.le_trans (check_messages_cycle_last_le hp parse st t)
        (ih (check_messages_cycle hp parse st t).state)

/-- Every message delivered during a run has a timestamp strictly above
the watcher's initial high-water mark. -/
theorem check_messages_run_delivered_gt {α : Type} (hp : Bool)
    (parse : String → Option (List (String × α))) (st : MsgState)
    (texts : List String) :
    ∀ d ∈ (check_messages_run hp parse st texts).2.1,
      st.last_messages_millis < d.1 := by
  induction texts generalizing st with
  | nil => simp [check_messages_run]
  | cons t ts ih =>
    simp only [check_messages_run]
    by_cases h : (check_messages_cycle hp parse st t).crashed = true
    · simp only [h, if_pos]
      exact check_messages_cycle_delivered_gt hp parse st t
    · rw [if_neg h]
      intro d hd
      rcases List.mem_append.mp hd with hd | hd
      · exact check_messages_cycle_delivered_gt hp parse st t d hd
      · exact Nat.lt_of_le_of_lt (check_messages_cycle_last_le hp parse st t)
          (ih (check_messages_cycle hp parse st t).state d hd)

theorem check_messages_run_delivered_le_final {α : Type} (hp : Bool)
    (parse : String → Option (List (String × α))) (st : MsgState)
    (texts : List String) :
    ∀ d ∈ (check_messages_run hp parse st texts).2.1,
      d.1 ≤ (check_messages_run hp parse st texts).1.last_messages_millis := by
  induction texts generalizing st with
  | nil => simp [check_messages_run]
  | cons t ts ih =>
    simp only [check_messages_run]
    by_cases h : (check_messages_cycle hp parse st t).crashed = true
    · simp only [h, if_pos]
      exact check_messages_cycle_delivered_le_final hp parse st t
    · rw [if_neg h]
      intro d hd
      rcases List.mem_append.mp hd with hd | hd
      · exact Nat.le_trans (check_messages_cycle_delivered_le_final hp parse st t d hd)
          (check_messages_run_last_le hp parse _ ts)
      · exact ih (check_messages_cycle hp parse st t).state d hd

/-- Across a whole run, the delivered timestamps are strictly increasing:
in particular no `(timestamp, message)` entry is ever delivered twice. -/
theorem check_messages_run_chain {α : Type} (hp : Bool)
    (parse : String → Option (List (String × α))) (st : MsgState)
    (texts : List String) :
    List.Chain' (fun a b : Nat × α => a.1 < b.1)
      (check_messages_run hp parse st texts).2.1 := by
  induction texts generalizing st with
  | nil => simp [check_messages_run]
  | cons t ts ih =>
    simp only [check_messages_run]
    by_cases h : (check_messages_cycle hp parse st t).crashed = true
    · simp only [h, if_pos]
      exact check_messages_cycle_chain hp parse st t
    · rw [if_neg h]
      refine List.Chain'.append (check_messages_cycle_chain hp parse st t)
        (ih (check_messages_cycle hp parse st t).state) ?_
      intro a ha b hb
      have h1 : a.1 ≤ (check_messages_cycle hp parse st t).state.last_messages_millis :=
        check_messages_cycle_delivered_le_final hp parse st t a
          (List.mem_of_mem_getLast? ha)
      have h2 := check_messages_run_delivered_gt hp parse
        (check_messages_cycle hp parse st t).state ts b
        (List.mem_of_mem_head? hb)
      exact Nat.lt_of_le_of_lt h1 h2

theorem scan_from_all_occ (occ wok : Nat → Bool) :
    ∀ n i, (∀ m, i ≤ m → m < i + n → occ m = true) →
      scan_from occ wok i n = (none, 0) := by
  intro n
  induction n with
  | zero => intro i _; rfl
  | succ n ih =>
    intro i h
    have hi : occ i = true := h i (Nat.le_refl i) (by omega)
    simp only [scan_from, hi, if_pos]
    exact ih (i + 1) fun m h1 h2 => h m (by omega) (by omega)

theorem scan_from_some (occ wok : Nat → Bool) :
    ∀ n i j lg, scan_from occ wok i n = (some j, lg) →
      i ≤ j ∧ j < i + n ∧ occ j = false ∧ wok j = true ∧
        ∀ m, i ≤ m → m < j → occ m = true ∨ wok m = false := by
  intro n
  induction n with
  | zero => intro i j lg h; simp [scan_from] at h
  | succ n ih =>
    intro i j lg h
    simp only [scan_from] at h
    by_cases hi : occ i = true
    · rw [if_pos hi] at h
      obtain ⟨h1, h2, h3, h4, h5⟩ := ih (i + 1) j lg h
      refine ⟨by omega, by omega, h3, h4, ?_⟩
      intro m hm1 hm2
      rcases Nat.eq_or_lt_of_le hm1 with rfl | hm1
      · exact Or.inl hi
      · exact h5 m hm1 hm2
    · rw [if_neg hi] at h
      by_cases hw : wok i = true
      · rw [if_pos hw] at h
        injection h with h1 h2
        injection h1 with h1
        subst h1
        refine ⟨Nat.le_refl i, by omega, by simpa using hi, hw, ?_⟩
        intro m hm1 hm2
        exact absurd (Nat.lt_of_le_of_lt hm1 hm2) (Nat.lt_irrefl i)
      · rw [if_neg hw] at h
        rcases hr : scan_from occ wok (i + 1) n with ⟨ro, rl⟩
        rw [hr] at h
        simp only [Prod.mk.injEq] at h
        obtain ⟨h1, -⟩ := h
        subst h1
        obtain ⟨g1, g2, g3, g4, g5⟩ := ih (i + 1) j rl hr
        refine ⟨by omega, by omega, g3, g4, ?_⟩
        intro m hm1 hm2
        rcases Nat.eq_or_lt_of_le hm1 with rfl | hm1'
        · exact Or.inr (by simpa using hw)
        · exact g5 m hm1' hm2

/-- If every slot file exists at every time, every pass scans in vain:
the loop runs to the deadline, writes nothing and logs nothing. -/
theorem send_loop_all_occ (occ wok : Nat → Nat → Bool)
    (n delay deadline : Nat) (hdelay : 0 < delay)
    (hocc : ∀ t i, i < n → occ t i = true) :
    ∀ now, send_loop occ wok n delay deadline hdelay now = (none, 0) := by
  have key : ∀ fuel now, deadline - now ≤ fuel →
      send_loop occ wok n delay deadline hdelay now = (none, 0) := by
    intro fuel
    induction fuel with
    | zero =>
      intro now h
      rw [send_loop]
      rw [dif_neg (by omega)]
    | succ fuel ih =>
      intro now h
      rw [send_loop]
      by_cases hlt : now < deadline
      · rw [dif_pos hlt]
        have hscan : scan_from (occ now) (wok now) 0 n = (none, 0) :=
          scan_from_all_occ _ _ n 0 fun m _ h2 => hocc now m (by omega)
        rw [hscan, ih (now + delay) (by omega)]
        rfl
      · rw [dif_neg hlt]
  intro now
  exact key (deadline - now) now (Nat.le_refl _)

/-- When the retry loop reports a successful write at `(t, i)`, the write
happened before the deadline, within the pool, into a slot whose file did
not exist, and every smaller slot index was skipped because its file
existed (or because its own write attempt failed). -/
theorem send_loop_some (occ wok : Nat → Nat → Bool)
    (n delay deadline : Nat) (hdelay : 0 < delay) :
    ∀ now t i l, send_loop occ wok n delay deadline hdelay now = (some (t, i), l) →
      now ≤ t ∧ t < deadline ∧ i < n ∧ occ t i = false ∧ wok t i = true ∧
        ∀ j, j < i → occ t j = true ∨ wok t j = false := by
  have key : ∀ fuel now t i l, deadline - now ≤ fuel →
      send_loop occ wok n delay deadline hdelay now = (some (t, i), l) →
      now ≤ t ∧ t < deadline ∧ i < n ∧ occ t i = false ∧ wok t i = true ∧
        ∀ j, j < i → occ t j = true ∨ wok t j = false := by
    intro fuel
    induction fuel with
    | zero =>
      intro now t i l h heq
      rw [send_loop, dif_neg (by omega)] at heq
      simp at heq
    | succ fuel ih =>
      intro now t i l h heq
      rw [send_loop] at heq
      by_cases hlt : now < deadline
      · rw [dif_pos hlt] at heq
        rcases hscan : scan_from (occ now) (wok now) 0 n with ⟨ro, rl⟩
        rw [hscan] at heq
        cases ro with
        | some k =>
          simp only [Prod.mk.injEq, Option.some.injEq] at heq
          obtain ⟨⟨h1, h2⟩, -⟩ := heq
          obtain ⟨-, g2, g3, g4, g5⟩ := scan_from_some _ _ n 0 k rl hscan
          subst h1
          subst h2
          exact ⟨Nat.le_refl _, hlt, by omega, g3, g4,
            fun j hj => g5 j (Nat.zero_le j) hj⟩
        | none =>
          simp only [Prod.mk.injEq] at heq
          obtain ⟨h1, -⟩ := heq
          rcases hr : send_loop occ wok n delay deadline hdelay (now + delay) with ⟨rro, rrl⟩
          rw [hr] at h1
          subst h1
          obtain ⟨g1, g2, g3, g4, g5, g6⟩ := ih (now + delay) t i rrl (by omega) hr
          exact ⟨by omega, g2, g3, g4, g5, g6⟩
      · rw [dif_neg hlt] at heq
        simp at heq
  intro now t i l
  exact key (deadline - now) now t i l (Nat.le_refl _)

theorem char_eq_of_toNat_eq {a b : Char} (h : a.toNat = b.toNat) : a = b :=
  Char.ext (UInt32.ext h)

theorem decValL_acc (cs : List Char) :
    ∀ m : Nat, cs.foldl (fun n c => 10 * n + digitVal c) m =
      m * 10 ^ cs.length + decValL cs := by
  induction cs with
  | nil => intro m; simp [decValL]
  | cons c cs ih =>
    intro m
    have h1 : decValL (c :: cs) = digitVal c * 10 ^ cs.length + decValL cs := by
      show List.foldl _ (10 * 0 + digitVal c) cs = _
      rw [ih (10 * 0 + digitVal c)]
      ring_nf
    show List.foldl _ (10 * m + digitVal c) cs = _
    rw [ih (10 * m + digitVal c), h1]
    simp [List.length_cons, Nat.pow_succ]
    ring

theorem decValL_cons (c : Char) (cs : List Char) :
    decValL (c :: cs) = digitVal c * 10 ^ cs.length + decValL cs := by
  show List.foldl _ (10 * 0 + digitVal c) cs = _
  rw [decValL_acc cs (10 * 0 + digitVal c)]
  ring_nf

theorem digitVal_le_nine {c : Char} (h : isDigitChar c = true) :
    digitVal c ≤ 9 := by
  simp only [isDigitChar, Bool.and_eq_true, decide_eq_true_eq] at h
  unfold digitVal
  omega

theorem decValL_lt_pow {cs : List Char}
    (h : ∀ c ∈ cs, isDigitChar c = true) :
    decValL cs < 10 ^ cs.length := by
  induction cs with
  | nil => simp [decValL]
  | cons c cs ih =>
    rw [decValL_cons]
    have h9 : digitVal c ≤ 9 := digitVal_le_nine (h c (List.mem_cons_self c cs))
    have hlt : decValL cs < 10 ^ cs.length :=
      ih fun d hd => h d (List.mem_cons_of_mem c hd)
    have hmul : digitVal c * 10 ^ cs.length ≤ 9 * 10 ^ cs.length :=
      Nat.mul_le_mul_right _ h9
    have hpow : (10 : Nat) ^ (c :: cs).length = 10 * 10 ^ cs.length := by
      simp [List.length_cons, Nat.pow_succ]; ring
    rw [hpow]
    omega

/-- On equal-length digit strings, strict lexicographic order implies
strict numeric order. -/
theorem lexLt_decValL : ∀ (as bs : List Char), as.length = bs.length →
    (∀ c ∈ as, isDigitChar c = true) → (∀ c ∈ bs, isDigitChar c = true) →
    lexLe as bs = true → as ≠ bs → decValL as < decValL bs := by
  intro as
  induction as with
  | nil =>
    intro bs hlen _ _ _ hne
    cases bs with
    | nil => exact absurd rfl hne
    | cons b bs => simp at hlen
  | cons a as ih =>
    intro bs hlen ha hb hlex hne
    cases bs with
    | nil => simp at hlen
    | cons b bs =>
      have hlen' : as.length = bs.length := by simpa using hlen
      have hda : isDigitChar a = true := ha a (List.mem_cons_self a as)
      have hdb : isDigitChar b = true := hb b (List.mem_cons_self b bs)
      simp only [isDigitChar, Bool.and_eq_true, decide_eq_true_eq] at hda hdb
      rw [decValL_cons, decValL_cons, hlen']
      by_cases hab : a.toNat < b.toNat
      · have hd : digitVal a < digitVal b := by unfold digitVal; omega
        have hva : decValL as < 10 ^ as.length :=
          decValL_lt_pow fun c hc => ha c (List.mem_cons_of_mem a hc)
        rw [hlen'] at hva
        have hmul : (digitVal a + 1) * 10 ^ bs.length ≤
            digitVal b * 10 ^ bs.length := Nat.mul_le_mul_right _ hd
        have hsucc : (digitVal a + 1) * 10 ^ bs.length =
            digitVal a * 10 ^ bs.length + 10 ^ bs.length := by ring
        omega
      · by_cases hba : b.toNat < a.toNat
        · rw [lexLe, if_neg hab, if_pos hba] at hlex
          simp at hlex
        · have heq : a = b := char_eq_of_toNat_eq (by omega)
          subst heq
          have hdv : digitVal a = digitVal a := rfl
          have htail : as ≠ bs := fun h => hne (by rw [h])
          rw [lexLe, if_neg hab, if_neg hba] at hlex
          have := ih bs hlen' (fun c hc => ha c (List.mem_cons_of_mem a hc))
            (fun c hc => hb c (List.mem_cons_of_mem a hc)) hlex htail
          omega

theorem lexLe_total : ∀ as bs : List Char,
    lexLe as bs = true ∨ lexLe bs as = true := by
  intro as
  induction as with
  | nil => intro bs; exact Or.inl rfl
  | cons a as ih =>
    intro bs
    cases bs with
    | nil => exact Or.inr rfl
    | cons b bs =>
      by_cases hab : a.toNat < b.toNat
      · exact Or.inl (by rw [lexLe, if_pos hab])
      · by_cases hba : b.toNat < a.toNat
        · exact Or.inr (by rw [lexLe, if_pos hba])
        · rcases ih bs with h | h
          · exact Or.inl (by rw [lexLe, if_neg hab, if_neg hba]; exact h)
          · exact Or.inr (by rw [lexLe, if_neg hba, if_neg hab]; exact h)

theorem lexLe_trans : ∀ as bs cs : List Char, lexLe as bs = true →
    lexLe bs cs = true → lexLe as cs = true := by
  intro as
  induction as with
  | nil => intro bs cs _ _; rfl
  | cons a as ih =>
    intro bs cs h1 h2
    cases bs with
    | nil => simp [lexLe] at h1
    | cons b bs =>
      cases cs with
      | nil => simp [lexLe] at h2
      | cons c cs =>
        rw [lexLe] at h1 h2 ⊢
        by_cases hab : a.toNat < b.toNat
        · by_cases hbc : b.toNat < c.toNat
          · rw [if_pos (by omega)]
          · by_cases hcb : c.toNat < b.toNat
            · rw [if_neg hbc, if_pos hcb] at h2
              simp at h2
            · have : b.toNat = c.toNat := by omega
              rw [if_pos (by omega)]
        · by_cases hba : b.toNat < a.toNat
          · rw [if_neg hab, if_pos hba] at h1
            simp at h1
          · rw [if_neg hab, if_neg hba] at h1
            by_cases hbc : b.toNat < c.toNat
            · rw [if_pos (by omega)]
            · by_cases hcb : c.toNat < b.toNat
              · rw [if_neg hbc, if_pos hcb] at h2
                simp at h2
              · rw [if_neg hbc, if_neg hcb] at h2
                rw [if_neg (by omega), if_neg (by omega)]
                exact ih bs cs h1 h2

theorem insertByKey_perm {α : Type} (p : String × α) :
    ∀ l : List (String × α), List.Perm (insertByKey p l) (p :: l) := by
  intro l
  induction l with
  | nil => rfl
  | cons q rest ih =>
    by_cases h : keyLe p.1 q.1 = true
    · rw [insertByKey, if_pos h]
    · rw [insertByKey, if_neg h]
      exact (ih.cons q).trans (List.Perm.swap p q rest)

theorem sortByKey_perm {α : Type} :
    ∀ l : List (String × α), List.Perm (sortByKey l) l := by
  intro l
  induction l with
  | nil => rfl
  | cons p rest ih =>
    exact (insertByKey_perm p (sortByKey rest)).trans (ih.cons p)

theorem insertByKey_pairwise {α : Type} (p : String × α)
    (l : List (String × α))
    (hl : l.Pairwise fun a b => keyLe a.1 b.1 = true) :
    (insertByKey p l).Pairwise fun a b => keyLe a.1 b.1 = true := by
  induction l with
  | nil => simp [insertByKey]
  | cons q rest ih =>
    rw [List.pairwise_cons] at hl
    obtain ⟨hq, hrest⟩ := hl
    by_cases h : keyLe p.1 q.1 = true
    · rw [insertByKey, if_pos h]
      refine List.pairwise_cons.mpr ⟨?_, List.pairwise_cons.mpr ⟨hq, hrest⟩⟩
      intro r hr
      rcases List.mem_cons.mp hr with rfl | hr
      · exact h
      · exact lexLe_trans _ _ _ h (hq r hr)
    · rw [insertByKey, if_neg h]
      refine List.pairwise_cons.mpr ⟨?_, ih hrest⟩
      intro r hr
      have hmem := (insertByKey_perm p rest).mem_iff.mp hr
      rcases List.mem_cons.mp hmem with rfl | hr'
      · rcases lexLe_total r.1.data q.1.data with ht | ht
        · exact absurd ht h
        · exact ht
      · exact hq r hr'

theorem sortByKey_pairwise {α : Type} :
    ∀ l : List (String × α),
      (sortByKey l).Pairwise fun a b => keyLe a.1 b.1 = true := by
  intro l
  induction l with
  | nil => simp [sortByKey]
  | cons p rest ih => exact insertByKey_pairwise p (sortByKey rest) ih

/-- When the items are already strictly ascending in numeric key value,
the message loop delivers exactly the items whose value exceeds the
running maximum, tagged with their numeric values. -/
theorem process_messages_sorted_complete {α : Type} :
    ∀ (items : List (String × α)) (last : Nat),
      (items.Pairwise fun a b => decVal a.1 < decVal b.1) →
      (process_messages last items).2 =
        (items.filter fun p => decide (last < decVal p.1)).map
          fun p => (decVal p.1, p.2) := by
  intro items
  induction items with
  | nil => intro last _; simp [process_messages]
  | cons p rest ih =>
    intro last hpw
    obtain ⟨k, m⟩ := p
    rw [List.pairwise_cons] at hpw
    obtain ⟨hhead, htail⟩ := hpw
    by_cases h : decVal k > last
    · simp only [process_messages, if_pos h]
      rw [List.filter_cons_of_pos (by simpa using h)]
      rw [List.map_cons]
      refine congrArg _ ?_
      rw [ih (decVal k) htail]
      have hall : rest.filter (fun p => decide (decVal k < decVal p.1)) = rest :=
        List.filter_eq_self.mpr fun q hq => by simpa using hhead q hq
      have hall' : rest.filter (fun p => decide (last < decVal p.1)) = rest :=
        List.filter_eq_self.mpr fun q hq => by
          simpa using Nat.lt_trans h (hhead q hq)
      rw [hall, hall']
    · simp only [process_messages, if_neg h]
      rw [List.filter_cons_of_neg (by simpa using h)]
      exact ih last htail

theorem string_ne_data_ne {s t : String} (h : s ≠ t) : s.data ≠ t.data := by
  intro hd
  apply h
  cases s
  cases t
  exact congrArg String.mk hd

/-- With pairwise-distinct keys that are digit strings of one common
length, the key-sorted snapshot is strictly ascending in numeric key
value. -/
theorem sortByKey_pairwise_decVal {α : Type} (data : List (String × α))
    (hdig : ∀ p ∈ data, ∀ c ∈ p.1.data, isDigitChar c = true)
    (hlen : ∀ p ∈ data, ∀ q ∈ data, p.1.data.length = q.1.data.length)
    (hnd : (data.map Prod.fst).Nodup) :
    (sortByKey data).Pairwise fun a b => decVal a.1 < decVal b.1 := by
  have hndp : data.Pairwise fun a b => a.1 ≠ b.1 := by
    have h1 : (data.map Prod.fst).Pairwise (· ≠ ·) := hnd
    rw [List.pairwise_map] at h1
    exact h1
  have hnds : (sortByKey data).Pairwise fun a b => a.1 ≠ b.1 :=
    (List.Perm.pairwise_iff (fun h => Ne.symm h) (sortByKey_perm data)).mpr hndp
  have hle : (sortByKey data).Pairwise fun a b => keyLe a.1 b.1 = true :=
    sortByKey_pairwise data
  have hcomb := hle.and hnds
  refine hcomb.imp_of_mem ?_
  intro a b ha hb hab
  have ha' : a ∈ data := (sortByKey_perm data).mem_iff.mp ha
  have hb' : b ∈ data := (sortByKey_perm data).mem_iff.mp hb
  exact lexLt_decValL a.1.data b.1.data (hlen a ha' b hb')
    (hdig a ha') (hdig b hb') hab.1 (string_ne_data_ne hab.2)

/-- Completeness of one messages cycle on snapshots whose keys are
pairwise-distinct digit strings of one common length: every message whose
numeric timestamp exceeds the current maximum is delivered. -/
theorem check_messages_cycle_complete {α : Type}
    (parse : String → Option (List (String × α))) (st : MsgState)
    (text : String) (data : List (String × α))
    (hne : strippedEmpty text = false)
    (hdiff : text ≠ st.last_messages_str)
    (hparse : parse text = some data)
    (hdig : ∀ p ∈ data, ∀ c ∈ p.1.data, isDigitChar c = true)
    (hlen : ∀ p ∈ data, ∀ q ∈ data, p.1.data.length = q.1.data.length)
    (hnd : (data.map Prod.fst).Nodup) :
    ∀ k m, (k, m) ∈ data → st.last_messages_millis < decVal k →
      (decVal k, m) ∈ (check_messages_cycle true parse st text).delivered := by
  intro k m hkm hgt
  unfold check_messages_cycle
  rw [if_neg (by simp [hne, hdiff])]
  rw [hparse]
  simp only [if_true]
  have hsorted := sortByKey_pairwise_decVal data hdig hlen hnd
  rw [process_messages_sorted_complete (sortByKey data) st.last_messages_millis hsorted]
  refine List.mem_map.mpr ⟨(k, m), ?_, rfl⟩
  refine List.mem_filter.mpr ⟨(sortByKey_perm data).mem_iff.mpr hkm, by simpa using hgt⟩

/-- C1 counterexample.  The claim states that, in one poll cycle, every
message whose timestamp exceeds the highest delivered timestamp is
delivered, in ascending numeric order.  On the snapshot with keys
`"99"` and `"100"` and prior maximum 0 the code sorts the items by
*string* key, so `"100"` comes before `"99"`; it delivers the message at
100 and then skips the one at 99 (99 < 100), although 99 exceeds the
prior maximum 0.  The claimed delivery `[(99, a), (100, b)]` does not
happen: only `[(100, b)]` is delivered and message `a` is lost. -/
theorem C1_counterexample :
    (check_messages_cycle true (fun _ => some [("99", "a"), ("100", "b")])
        ⟨0, ""⟩ "snap").delivered = [(100, "b")] ∧
    ("99", "a") ∈ [("99", "a"), ("100", "b")] ∧ 0 < decVal "99" ∧
    ((99 : Nat), "a") ∉ (check_messages_cycle true
        (fun _ => some [("99", "a"), ("100", "b")])
        ⟨0, ""⟩ "snap").delivered := by decide

/-- C1 (amended): messages are delivered to `on_message` with strictly
ascending numeric timestamps over the whole run, each strictly above the
watcher's high-water mark at the start of the run — so every message is
delivered at most once and the dispatcher never delivers at or below the
recorded maximum.  Completeness, however, only holds when the snapshot's
keys are pairwise-distinct digit strings of one common length (true of
millisecond timestamps): then every message of the snapshot whose
timestamp exceeds the current maximum is delivered.  With keys of mixed
digit lengths, lexicographic sorting can place a larger timestamp first
and silently drop a message (see the counterexample). -/
theorem C1_message_delivery {α : Type}
    (parse : String → Option (List (String × α))) (st : MsgState)
    (texts : List String) (st0 : MsgState) (text : String)
    (data : List (String × α))
    (hne : strippedEmpty text = false)
    (hdiff : text ≠ st0.last_messages_str)
    (hparse : parse text = some data)
    (hdig : ∀ p ∈ data, ∀ c ∈ p.1.data, isDigitChar c = true)
    (hlen : ∀ p ∈ data, ∀ q ∈ data, p.1.data.length = q.1.data.length)
    (hnd : (data.map Prod.fst).Nodup) :
    List.Chain' (fun a b : Nat × α => a.1 < b.1)
      (check_messages_run true parse st texts).2.1 ∧
    (∀ d ∈ (check_messages_run true parse st texts).2.1,
      st.last_messages_millis < d.1) ∧
    (∀ k m, (k, m) ∈ data → st0.last_messages_millis < decVal k →
      (decVal k, m) ∈ (check_messages_cycle true parse st0 text).delivered) :=
  ⟨check_messages_run_chain true parse st texts,
    check_messages_run_delivered_gt true parse st texts,
    check_messages_cycle_complete parse st0 text data hne hdiff hparse
      hdig hlen hnd⟩

/-- Concrete instance of the amended C1 theorem: a run over one snapshot
read, and a cycle whose snapshot has keys "100" and "150" (equal-length
digit strings) with prior maximum 120. -/
theorem C1_message_delivery_witness :
    List.Chain' (fun a b : Nat × String => a.1 < b.1)
      (check_messages_run true
        (fun s => if s = "snap" then some [("100", "x"), ("150", "y")] else none)
        ⟨0, ""⟩ ["snap"]).2.1 ∧
    (∀ d ∈ (check_messages_run true
        (fun s => if s = "snap" then some [("100", "x"), ("150", "y")] else none)
        ⟨0, ""⟩ ["snap"]).2.1, 0 < d.1) ∧
    (∀ k m, (k, m) ∈ [("100", "x"), ("150", "y")] → 120 < decVal k →
      (decVal k, m) ∈ (check_messages_cycle true
        (fun s => if s = "snap" then some [("100", "x"), ("150", "y")] else none)
        ⟨120, ""⟩ "snap").delivered) :=
  C1_message_delivery
    (fun s => if s = "snap" then some [("100", "x"), ("150", "y")] else none)
    ⟨0, ""⟩ ["snap"] ⟨120, ""⟩ "snap" [("100", "x"), ("150", "y")]
    (by decide) (by decide) rfl (by decide) (by decide) (by decide)

/-- C2 counterexample.  The claim states that on a parse failure the
watcher does not update the last-seen raw content and the polling loop
continues running.  On non-JSON content "garbage" (with empty prior
last-seen string) the open-orders cycle stores "garbage" as the last-seen
content *before* parsing — so the same bytes are not retried — and the
uncaught decode exception terminates the polling thread. -/
theorem C2_counterexample :
    (check_open_orders_cycle true true true (fun _ => none)
        (⟨"", "acct", []⟩ : OrdersState String) "garbage").crashed = true ∧
    (check_open_orders_cycle true true true (fun _ => none)
        (⟨"", "acct", []⟩ : OrdersState String) "garbage").state.last_open_orders_str
      = "garbage" := by decide

/-- C2 (amended): when non-empty, changed content fails to parse, the
open-orders and bar-data watchers retain the prior parsed state and fire
no event — but they have already overwritten the last-seen raw content
with the failing bytes (so those bytes would not be re-tried), nothing is
logged by the watcher itself, and the uncaught decode exception
terminates that watcher's polling thread instead of the loop
continuing. -/
theorem C2_parse_failure {β π : Type} [DecidableEq π] (verbose hp lff : Bool)
    (parseO : String → Option (OrdersData β)) (stO : OrdersState β)
    (textO : String)
    (parseB : String → Option (List (String × BarRec π))) (stB : BarState π)
    (textB : String)
    (hneO : strippedEmpty textO = false)
    (hdiffO : textO ≠ stO.last_open_orders_str)
    (hpO : parseO textO = none)
    (hneB : strippedEmpty textB = false)
    (hdiffB : textB ≠ stB.last_bar_data_str)
    (hpB : parseB textB = none) :
    (check_open_orders_cycle verbose hp lff parseO stO textO).crashed = true ∧
    (check_open_orders_cycle verbose hp lff parseO stO textO).state.last_open_orders_str = textO ∧
    (check_open_orders_cycle verbose hp lff parseO stO textO).state.open_orders = stO.open_orders ∧
    (check_open_orders_cycle verbose hp lff parseO stO textO).state.account_info = stO.account_info ∧
    (check_open_orders_cycle verbose hp lff parseO stO textO).removed = [] ∧
    (check_open_orders_cycle verbose hp lff parseO stO textO).added = [] ∧
    (check_open_orders_cycle verbose hp lff parseO stO textO).fired = false ∧
    (check_open_orders_cycle verbose hp lff parseO stO textO).stored = none ∧
    (check_bar_data_cycle hp parseB stB textB).crashed = true ∧
    (check_bar_data_cycle hp parseB stB textB).state.last_bar_data_str = textB ∧
    (check_bar_data_cycle hp parseB stB textB).state.bar_data = stB.bar_data ∧
    (check_bar_data_cycle hp parseB stB textB).state.last_bar_data = stB.last_bar_data ∧
    (check_bar_data_cycle hp parseB stB textB).bars = [] := by
  have hO : (textO == stO.last_open_orders_str) = false :=
    beq_eq_false_iff_ne.mpr hdiffO
  have hB : (textB == stB.last_bar_data_str) = false :=
    beq_eq_false_iff_ne.mpr hdiffB
  simp [check_open_orders_cycle, check_bar_data_cycle, hneO, hneB, hO, hB,
    hpO, hpB]

/-- Concrete instance of the amended C2 theorem at non-JSON content. -/
theorem C2_parse_failure_witness :
    (check_open_orders_cycle true true true (fun _ => none)
        (⟨"old", "acct", [("1", "o")]⟩ : OrdersState String) "bad").crashed = true ∧
    (check_open_orders_cycle true true true (fun _ => none)
        (⟨"old", "acct", [("1", "o")]⟩ : OrdersState String) "bad").state.last_open_orders_str = "bad" ∧
    (check_open_orders_cycle true true true (fun _ => none)
        (⟨"old", "acct", [("1", "o")]⟩ : OrdersState String) "bad").state.open_orders = [("1", "o")] ∧
    (check_open_orders_cycle true true true (fun _ => none)
        (⟨"old", "acct", [("1", "o")]⟩ : OrdersState String) "bad").state.account_info = "acct" ∧
    (check_open_orders_cycle true true true (fun _ => none)
        (⟨"old", "acct", [("1", "o")]⟩ : OrdersState String) "bad").removed = [] ∧
    (check_open_orders_cycle true true true (fun _ => none)
        (⟨"old", "acct", [("1", "o")]⟩ : OrdersState String) "bad").added = [] ∧
    (check_open_orders_cycle true true true (fun _ => none)
        (⟨"old", "acct", [("1", "o")]⟩ : OrdersState String) "bad").fired = false ∧
    (check_open_orders_cycle true true true (fun _ => none)
        (⟨"old", "acct", [("1", "o")]⟩ : OrdersState String) "bad").stored = none ∧
    (check_bar_data_cycle true (fun _ => none)
        (⟨"oldb", [], []⟩ : BarState Nat) "badb").crashed = true ∧
    (check_bar_data_cycle true (fun _ => none)
        (⟨"oldb", [], []⟩ : BarState Nat) "badb").state.last_bar_data_str = "badb" ∧
    (check_bar_data_cycle true (fun _ => none)
        (⟨"oldb", [], []⟩ : BarState Nat) "badb").state.bar_data = [] ∧
    (check_bar_data_cycle true (fun _ => none)
        (⟨"oldb", [], []⟩ : BarState Nat) "badb").state.last_bar_data = [] ∧
    (check_bar_data_cycle true (fun _ => none)
        (⟨"oldb", [], []⟩ : BarState Nat) "badb").bars = [] :=
  C2_parse_failure true true true (fun _ => none) ⟨"old", "acct", [("1", "o")]⟩
    "bad" (fun _ => none) ⟨"oldb", [], []⟩ "badb"
    (by decide) (by decide) rfl (by decide) (by decide) rfl

/-- C3 counterexample.  The claim states that on slot exhaustion
`send_command` "logs the failure".  With every one of the 50 slot files
existing throughout a 5-tick retry window, the call returns with no write
performed and with zero log records: the source has no logging statement
on the exhaustion path (its only logging, `print_exc`, happens on a write
exception), so the claimed failure log does not occur. -/
theorem C3_counterexample :
    (send_command (fun _ _ => true) (fun _ _ => true) 50 1 5 0 Nat.one_pos
        7 "OPEN_ORDER" "EURUSD,buy").write = none ∧
    (send_command (fun _ _ => true) (fun _ _ => true) 50 1 5 0 Nat.one_pos
        7 "OPEN_ORDER" "EURUSD,buy").logs = 0 := by
  have h := send_loop_all_occ (fun _ _ => true) (fun _ _ => true) 50 1 (0 + 5)
    Nat.one_pos (fun _ _ _ => rfl) 0
  constructor
  · show ((send_loop (fun _ _ => true) (fun _ _ => true) 50 1 (0 + 5)
        Nat.one_pos 0).1.map _) = none
    rw [h]
    rfl
  · show (send_loop (fun _ _ => true) (fun _ _ => true) 50 1 (0 + 5)
        Nat.one_pos 0).2 = 0
    rw [h]

/-- C3 (amended): if every slot file exists at every instant of the retry
window, `send_command` returns once the deadline is reached, writes no
slot file and raises nothing to the caller — but it emits no log at all
(the source has no logging on the exhaustion path), rather than logging
the failure. -/
theorem C3_send_exhaustion (occ wok : Nat → Nat → Bool)
    (n delay maxRetry now0 : Nat) (hdelay : 0 < delay)
    (cid : Nat) (command content : String)
    (hocc : ∀ t i, i < n → occ t i = true) :
    (send_command occ wok n delay maxRetry now0 hdelay cid command content).write = none ∧
    (send_command occ wok n delay maxRetry now0 hdelay cid command content).logs = 0 := by
  have h := send_loop_all_occ occ wok n delay (now0 + maxRetry) hdelay hocc now0
  constructor
  · show ((send_loop occ wok n delay (now0 + maxRetry) hdelay now0).1.map _) = none
    rw [h]
    rfl
  · show (send_loop occ wok n delay (now0 + maxRetry) hdelay now0).2 = 0
    rw [h]

/-- Concrete instance of the amended C3 theorem: all 50 slots occupied
for the whole window. -/
theorem C3_send_exhaustion_witness :
    (send_command (fun _ _ => true) (fun _ _ => true) 50 1 10 3 Nat.one_pos
        42 "CLOSE_ALL_ORDERS" "").write = none ∧
    (send_command (fun _ _ => true) (fun _ _ => true) 50 1 10 3 Nat.one_pos
        42 "CLOSE_ALL_ORDERS" "").logs = 0 :=
  C3_send_exhaustion (fun _ _ => true) (fun _ _ => true) 50 1 10 3
    Nat.one_pos 42 "CLOSE_ALL_ORDERS" "" (fun _ _ _ => rfl)

/-- C4: a market-data poll cycle fires events exactly for the non-empty
semantic diff.  Empty or byte-identical raw content fires zero callbacks
and leaves the state unchanged.  On a changed snapshot, `on_tick` fires
exactly once per symbol whose record is new or changed relative to the
prior snapshot, with that symbol's updated bid and ask, and fires at
least one callback iff some symbol's record is new or changed. -/
theorem C4_tick_events_iff_diff {π : Type} [DecidableEq π]
    (parse : String → Option (List (String × TickRec π)))
    (st : MarketState π) (text : String) (data : List (String × TickRec π))
    (hne : strippedEmpty text = false)
    (hdiff : text ≠ st.last_market_data_str)
    (hparse : parse text = some data)
    (hnd : (data.map Prod.fst).Nodup) :
    (∀ t', (strippedEmpty t' || t' == st.last_market_data_str) = true →
      (check_market_data_cycle true parse st t').state = st ∧
      (check_market_data_cycle true parse st t').ticks = []) ∧
    (∀ s b a, (s, b, a) ∈ (check_market_data_cycle true parse st text).ticks ↔
      ∃ v : TickRec π, (s, v) ∈ data ∧
        tick_changed st.last_market_data s v = true ∧ v.bid = b ∧ v.ask = a) ∧
    ((check_market_data_cycle true parse st text).ticks.map
      fun e => e.1).Nodup ∧
    (check_market_data_cycle true parse st text).state.market_data = data ∧
    (check_market_data_cycle true parse st text).state.last_market_data = data ∧
    ((check_market_data_cycle true parse st text).ticks ≠ [] ↔
      ∃ p ∈ data, tick_changed st.last_market_data p.1 p.2 = true) := by
  have hcond : (strippedEmpty text || text == st.last_market_data_str) = false := by
    simp [hne, beq_eq_false_iff_ne.mpr hdiff]
  have hout : check_market_data_cycle true parse st text =
      ⟨⟨text, data, data⟩,
        (data.filter fun p => tick_changed st.last_market_data p.1 p.2).map
          fun p => (p.1, p.2.bid, p.2.ask), false⟩ := by
    unfold check_market_data_cycle
    rw [if_neg (by simp [hcond]), hparse]
    rfl
  refine ⟨?_, ?_, ?_, ?_, ?_, ?_⟩
  · intro t' h
    unfold check_market_data_cycle
    rw [if_pos h]
    exact ⟨rfl, rfl⟩
  · intro s b a
    rw [hout]
    constructor
    · intro hmem
      obtain ⟨p, hpf, heq⟩ := List.mem_map.mp hmem
      obtain ⟨hpd, hpc⟩ := List.mem_filter.mp hpf
      cases heq
      exact ⟨p.2, hpd, by simpa using hpc, rfl, rfl⟩
    · rintro ⟨v, hv, hc, rfl, rfl⟩
      exact List.mem_map.mpr ⟨(s, v), List.mem_filter.mpr ⟨hv, by simpa using hc⟩, rfl⟩
  · rw [hout]
    simp only [List.map_map]
    have hsub : ((data.filter fun p =>
        tick_changed st.last_market_data p.1 p.2).map
          ((fun e => e.1) ∘ fun p => (p.1, p.2.bid, p.2.ask))).Sublist
        (data.map Prod.fst) := by
      have : ((fun e : String × π × π => e.1) ∘
          fun p : String × TickRec π => (p.1, p.2.bid, p.2.ask)) = Prod.fst := rfl
      rw [this]
      exact (List.filter_sublist data).map Prod.fst
    exact hnd.sublist hsub
  · rw [hout]
  · rw [hout]
  · rw [hout]
    simp only [ne_eq, List.map_eq_nil_iff, List.filter_eq_nil_iff]
    constructor
    · intro h
      by_contra hcon
      push_neg at hcon
      exact h fun p hp => by
        have := hcon p hp
        simpa using this
    · rintro ⟨p, hp, hc⟩ h
      exact absurd hc (by simpa using h p hp)

/-- Concrete instance of the C4 theorem mirroring the spec's end-to-end
example (prices scaled to integers): only EURUSD's ask changes, so the
diff is the single changed symbol. -/
theorem C4_tick_events_iff_diff_witness :
    (∀ t', (strippedEmpty t' ||
        t' == (⟨"t1", [("EURUSD", ⟨11, 12⟩)], [("EURUSD", ⟨11, 12⟩)]⟩ :
          MarketState Nat).last_market_data_str) = true →
      (check_market_data_cycle true
        (fun s => if s = "t2" then some [("EURUSD", ⟨11, 13⟩)] else none)
        ⟨"t1", [("EURUSD", ⟨11, 12⟩)], [("EURUSD", ⟨11, 12⟩)]⟩ t').state =
        ⟨"t1", [("EURUSD", ⟨11, 12⟩)], [("EURUSD", ⟨11, 12⟩)]⟩ ∧
      (check_market_data_cycle true
        (fun s => if s = "t2" then some [("EURUSD", ⟨11, 13⟩)] else none)
        ⟨"t1", [("EURUSD", ⟨11, 12⟩)], [("EURUSD", ⟨11, 12⟩)]⟩ t').ticks = []) ∧
    (∀ s b a, (s, b, a) ∈ (check_market_data_cycle true
        (fun s => if s = "t2" then some [("EURUSD", ⟨11, 13⟩)] else none)
        ⟨"t1", [("EURUSD", ⟨11, 12⟩)], [("EURUSD", ⟨11, 12⟩)]⟩ "t2").ticks ↔
      ∃ v : TickRec Nat, (s, v) ∈ [("EURUSD", (⟨11, 13⟩ : TickRec Nat))] ∧
        tick_changed [("EURUSD", ⟨11, 12⟩)] s v = true ∧ v.bid = b ∧ v.ask = a) ∧
    ((check_market_data_cycle true
        (fun s => if s = "t2" then some [("EURUSD", ⟨11, 13⟩)] else none)
        ⟨"t1", [("EURUSD", ⟨11, 12⟩)], [("EURUSD", ⟨11, 12⟩)]⟩ "t2").ticks.map
      fun e => e.1).Nodup ∧
    (check_market_data_cycle true
        (fun s => if s = "t2" then some [("EURUSD", ⟨11, 13⟩)] else none)
        ⟨"t1", [("EURUSD", ⟨11, 12⟩)], [("EURUSD", ⟨11, 12⟩)]⟩ "t2").state.market_data
      = [("EURUSD", ⟨11, 13⟩)] ∧
    (check_market_data_cycle true
        (fun s => if s = "t2" then some [("EURUSD", ⟨11, 13⟩)] else none)
        ⟨"t1", [("EURUSD", ⟨11, 12⟩)], [("EURUSD", ⟨11, 12⟩)]⟩ "t2").state.last_market_data
      = [("EURUSD", ⟨11, 13⟩)] ∧
    ((check_market_data_cycle true
        (fun s => if s = "t2" then some [("EURUSD", ⟨11, 13⟩)] else none)
        ⟨"t1", [("EURUSD", ⟨11, 12⟩)], [("EURUSD", ⟨11, 12⟩)]⟩ "t2").ticks ≠ [] ↔
      ∃ p ∈ [("EURUSD", (⟨11, 13⟩ : TickRec Nat))],
        tick_changed [("EURUSD", ⟨11, 12⟩)] p.1 p.2 = true) :=
  C4_tick_events_iff_diff
    (fun s => if s = "t2" then some [("EURUSD", ⟨11, 13⟩)] else none)
    ⟨"t1", [("EURUSD", ⟨11, 12⟩)], [("EURUSD", ⟨11, 12⟩)]⟩ "t2"
    [("EURUSD", ⟨11, 13⟩)] (by decide) (by decide) rfl (by decide)

/-- C5: on an open-orders snapshot whose key set is B,C while the stored
orders have keys A,B, the cycle emits exactly one "Order removed"
notification, for A, and exactly one "New order" notification, for C;
`on_order_event` fires; and the stored orders afterwards are exactly the
new snapshot's orders (existence-diff on keys, not field-diff: B stays
silent even though its value may have changed). -/
theorem C5_order_existence_diff {β : Type} (lff : Bool)
    (parse : String → Option (OrdersData β)) (st : OrdersState β)
    (text A B C : String) (va vb vb' vc : β) (ai : β)
    (hne : strippedEmpty text = false)
    (hdiff : text ≠ st.last_open_orders_str)
    (hparse : parse text = some ⟨ai, [(B, vb'), (C, vc)]⟩)
    (horders : st.open_orders = [(A, va), (B, vb)])
    (hAB : A ≠ B) (hBC : B ≠ C) (hAC : A ≠ C) :
    (check_open_orders_cycle true true lff parse st text).removed = [A] ∧
    (check_open_orders_cycle true true lff parse st text).added = [C] ∧
    (check_open_orders_cycle true true lff parse st text).state.open_orders
      = [(B, vb'), (C, vc)] ∧
    (check_open_orders_cycle true true lff parse st text).fired = true := by
  have hcond : (strippedEmpty text || text == st.last_open_orders_str) = false := by
    simp [hne, beq_eq_false_iff_ne.mpr hdiff]
  have hBA : (B == A) = false := beq_eq_false_iff_ne.mpr (Ne.symm hAB)
  have hCA : (C == A) = false := beq_eq_false_iff_ne.mpr (Ne.symm hAC)
  have hAC' : (A == C) = false := beq_eq_false_iff_ne.mpr hAC
  have hBC' : (B == C) = false := beq_eq_false_iff_ne.mpr hBC
  unfold check_open_orders_cycle
  rw [if_neg (by simp [hcond]), hparse]
  simp [hasKey, horders, hBA, hCA, hAC', hBC']

/-- Concrete instance of the C5 theorem with orders T1,T2 before and
T2,T3 after. -/
theorem C5_order_existence_diff_witness :
    (check_open_orders_cycle true true true
        (fun _ => some ⟨"acct", [("T2", "b2"), ("T3", "c1")]⟩)
        (⟨"", "a0", [("T1", "a1"), ("T2", "b1")]⟩ : OrdersState String)
        "snap").removed = ["T1"] ∧
    (check_open_orders_cycle true true true
        (fun _ => some ⟨"acct", [("T2", "b2"), ("T3", "c1")]⟩)
        (⟨"", "a0", [("T1", "a1"), ("T2", "b1")]⟩ : OrdersState String)
        "snap").added = ["T3"] ∧
    (check_open_orders_cycle true true true
        (fun _ => some ⟨"acct", [("T2", "b2"), ("T3", "c1")]⟩)
        (⟨"", "a0", [("T1", "a1"), ("T2", "b1")]⟩ : OrdersState String)
        "snap").state.open_orders = [("T2", "b2"), ("T3", "c1")] ∧
    (check_open_orders_cycle true true true
        (fun _ => some ⟨"acct", [("T2", "b2"), ("T3", "c1")]⟩)
        (⟨"", "a0", [("T1", "a1"), ("T2", "b1")]⟩ : OrdersState String)
        "snap").fired = true :=
  C5_order_existence_diff true (fun _ => some ⟨"acct", [("T2", "b2"), ("T3", "c1")]⟩)
    ⟨"", "a0", [("T1", "a1"), ("T2", "b1")]⟩ "snap" "T1" "T2" "T3"
    "a1" "b1" "b2" "c1" "acct" (by decide) (by decide) rfl rfl
    (by decide) (by decide) (by decide)

/-- C6: when writes succeed, a `send_command` that performs a write at
time `t` into slot `i` claimed the first slot file (scanning in the fixed
order 0..49) that did not exist at that time, wrote the single encoded
line into it, and wrote nothing else (the model's single optional write
is the break out of both the scan and the retry loop). -/
theorem C6_send_first_vacant_slot (occ wok : Nat → Nat → Bool)
    (delay maxRetry now0 : Nat) (hdelay : 0 < delay)
    (cid : Nat) (command content : String) (t i : Nat) (line : String)
    (hwok : ∀ u j, wok u j = true)
    (hw : (send_command occ wok num_command_files delay maxRetry now0 hdelay
      cid command content).write = some (t, i, line)) :
    i < num_command_files ∧ occ t i = false ∧
    (∀ j, j < i → occ t j = true) ∧
    line = encode_command (next_command_id cid) command content ∧
    now0 ≤ t ∧ t < now0 + maxRetry := by
  have hw' : ((send_loop occ wok num_command_files delay (now0 + maxRetry)
      hdelay now0).1.map fun p =>
        (p.1, p.2, encode_command (next_command_id cid) command content))
      = some (t, i, line) := hw
  rcases hr : (send_loop occ wok num_command_files delay (now0 + maxRetry)
      hdelay now0).1 with - | p
  · rw [hr] at hw'
    simp at hw'
  · rw [hr] at hw'
    rw [Option.map_some'] at hw'
    obtain ⟨rfl, rfl, rfl⟩ : p.1 = t ∧ p.2 = i ∧
        encode_command (next_command_id cid) command content = line := by
      obtain ⟨p1, p2⟩ := p
      injection hw' with h1
      injection h1 with h1 h2
      injection h2 with h2 h3
      exact ⟨h1, h2, h3⟩
    have hsome : send_loop occ wok num_command_files delay (now0 + maxRetry)
        hdelay now0 = (some (p.1, p.2),
          (send_loop occ wok num_command_files delay (now0 + maxRetry)
            hdelay now0).2) := by
      rw [← hr]
    obtain ⟨g1, g2, g3, g4, g5, g6⟩ := send_loop_some occ wok
      num_command_files delay (now0 + maxRetry) hdelay now0 p.1 p.2 _ hsome
    refine ⟨g3, g4, ?_, rfl, g1, g2⟩
    intro j hj
    rcases g6 j hj with h | h
    · exact h
    · exact absurd (hwok p.1 j) (by simp [h])

/-- Concrete instance of the C6 theorem: with every slot vacant and
writes succeeding, the send writes slot 0 at time 0 with the encoded
line. -/
theorem C6_send_first_vacant_slot_witness :
    (0 < num_command_files ∧ (fun _ _ => false : Nat → Nat → Bool) 0 0 = false ∧
      (∀ j, j < 0 → (fun _ _ => false : Nat → Nat → Bool) 0 j = true) ∧
      encode_command 1 "TEST" "p" = encode_command (next_command_id 0) "TEST" "p" ∧
      0 ≤ 0 ∧ 0 < 0 + 1) :=
  C6_send_first_vacant_slot (fun _ _ => false) (fun _ _ => true) 1 1 0
    Nat.one_pos 0 "TEST" "p" 0 0 (encode_command 1 "TEST" "p")
    (fun _ _ => rfl)
    (by simp [send_command, send_loop, scan_from, num_command_files,
      next_command_id, command_id_wrap])

theorem command_ids_from_gt :
    ∀ (N cid : Nat), cid + N < command_id_wrap →
      ∀ x ∈ command_ids_from cid N, cid < x := by
  intro N
  induction N with
  | zero => intro cid _ x hx; simp [command_ids_from] at hx
  | succ N ih =>
    intro cid h x hx
    have hnext : next_command_id cid = cid + 1 :=
      Nat.mod_eq_of_lt (by unfold command_id_wrap at h ⊢; omega)
    rw [command_ids_from, hnext] at hx
    rcases List.mem_cons.mp hx with rfl | hx
    · omega
    · have := ih (cid + 1) (by omega) x hx
      omega

/-- As long as the counter does not wrap, sequential sends produce the
strictly increasing ids cid+1, cid+2, …. -/
theorem command_ids_from_chain :
    ∀ (N cid : Nat), cid + N < command_id_wrap →
      List.Chain' (· < ·) (command_ids_from cid N) := by
  intro N
  induction N with
  | zero => intro cid _; simp [command_ids_from]
  | succ N ih =>
    intro cid h
    have hnext : next_command_id cid = cid + 1 :=
      Nat.mod_eq_of_lt (by unfold command_id_wrap at h ⊢; omega)
    rw [command_ids_from, hnext]
    refine List.chain'_cons'.mpr ⟨?_, ih (cid + 1) (by omega)⟩
    intro y hy
    have hmem : y ∈ command_ids_from (cid + 1) N :=
      List.mem_of_mem_head? hy
    exact command_ids_from_gt N (cid + 1) (by omega) y hmem

/-- C7 counterexample.  The claim states the counter is set to zero only
by the explicit reset handshake.  But a plain `send_command` issued while
the counter holds 99999 wraps it to zero: `(99999 + 1) % 100000 = 0`,
with no reset involved. -/
theorem C7_counterexample :
    (send_command (fun _ _ => true) (fun _ _ => true) 50 1 1 0 Nat.one_pos
      99999 "SUBSCRIBE_SYMBOLS" "EURUSD").command_id = 0 := rfl

/-- C7 (amended): every `send_command` sets the counter to its previous
value plus one modulo 100000, and as long as the counter does not wrap,
N sequential sends produce the strictly increasing ids cid+1 … cid+N.
The counter reaches zero through `reset_command_ids` — which zeroes it,
sends `RESET_COMMAND_IDS` (itself incrementing the fresh counter to 1)
and settles for a fixed 500 ms — but also through the increment wrapping
at the bound (99999 + 1 ≡ 0), without any reset. -/
theorem C7_command_id_sequencing :
    (∀ (occ wok : Nat → Nat → Bool) (n delay maxRetry now0 : Nat)
        (hdelay : 0 < delay) (cid : Nat) (c ct : String),
      (send_command occ wok n delay maxRetry now0 hdelay cid c ct).command_id
        = (cid + 1) % 100000) ∧
    (∀ N cid : Nat, cid + N < command_id_wrap →
      command_ids_from cid N = (List.range N).map fun k => cid + k + 1) ∧
    (∀ N cid : Nat, cid + N < command_id_wrap →
      List.Chain' (· < ·) (command_ids_from cid N)) ∧
    next_command_id 99999 = 0 ∧
    (∀ (occ wok : Nat → Nat → Bool) (n delay maxRetry now0 : Nat)
        (hdelay : 0 < delay),
      (reset_command_ids occ wok n delay maxRetry now0 hdelay).1.command_id = 1 ∧
      (reset_command_ids occ wok n delay maxRetry now0 hdelay).2 = reset_settle_ms ∧
      ∀ t i l, (reset_command_ids occ wok n delay maxRetry now0 hdelay).1.write
          = some (t, i, l) →
        l = encode_command 1 "RESET_COMMAND_IDS" "") := by
  refine ⟨fun _ _ _ _ _ _ _ _ _ _ => rfl, ?_, command_ids_from_chain, rfl,
    fun occ wok n delay maxRetry now0 hdelay => ⟨rfl, rfl, ?_⟩⟩
  · intro N
    induction N with
    | zero => intro cid _; simp [command_ids_from]
    | succ N ih =>
      intro cid h
      have hnext : next_command_id cid = cid + 1 :=
        Nat.mod_eq_of_lt (by unfold command_id_wrap at h ⊢; omega)
      rw [command_ids_from, hnext, ih (cid + 1) (by unfold command_id_wrap at h ⊢; omega),
        List.range_succ_eq_map, List.map_cons, List.map_map]
      refine congrArg₂ _ (by omega) ?_
      refine List.map_congr_left ?_
      intro k _
      simp [Function.comp]
      omega
  · intro t i l hw
    have hw' : ((send_loop occ wok n delay (now0 + maxRetry) hdelay now0).1.map
        fun p => (p.1, p.2,
          encode_command (next_command_id 0) "RESET_COMMAND_IDS" ""))
        = some (t, i, l) := hw
    rcases hr : (send_loop occ wok n delay (now0 + maxRetry) hdelay now0).1 with - | p
    · rw [hr] at hw'
      simp at hw'
    · rw [hr, Option.map_some'] at hw'
      injection hw' with h1
      obtain ⟨p1, p2⟩ := p
      injection h1 with h1 h2
      injection h2 with h2 h3
      exact h3.symm

/-- Concrete instance of the C7 theorem at counter 5 and three sends:
ids 6, 7, 8 without wrap. -/
theorem C7_command_id_sequencing_witness :
    (send_command (fun _ _ => true) (fun _ _ => true) 50 1 1 0 Nat.one_pos
      5 "CLOSE_ORDER" "1").command_id = (5 + 1) % 100000 ∧
    command_ids_from 5 3 = (List.range 3).map (fun k => 5 + k + 1) ∧
    List.Chain' (· < ·) (command_ids_from 5 3) ∧
    (reset_command_ids (fun _ _ => true) (fun _ _ => true) 50 1 1 0
      Nat.one_pos).1.command_id = 1 :=
  ⟨C7_command_id_sequencing.1 (fun _ _ => true) (fun _ _ => true) 50 1 1 0
      Nat.one_pos 5 "CLOSE_ORDER" "1",
    C7_command_id_sequencing.2.1 3 5 (by decide),
    C7_command_id_sequencing.2.2.1 3 5 (by decide),
    (C7_command_id_sequencing.2.2.2.2 (fun _ _ => true) (fun _ _ => true)
      50 1 1 0 Nat.one_pos).1⟩

/-- C8: after a restart that loads the persisted messages file, no
message with timestamp at or below the maximum timestamp of the persisted
snapshot is ever delivered again: every delivery of the subsequent run
has a strictly larger timestamp. -/
theorem C8_no_redelivery_after_restart {α : Type} (hp : Bool)
    (parse : String → Option (List (String × α)))
    (ptext : String) (pdata : List (String × α)) (texts : List String)
    (st : MsgState)
    (hlen : ptext.length > 0)
    (hparse : parse ptext = some pdata)
    (hload : load_messages parse ptext = some st) :
    ∀ d ∈ (check_messages_run hp parse st texts).2.1,
      msgs_max_millis pdata < d.1 := by
  have hst : st = ⟨msgs_max_millis pdata, ptext⟩ := by
    unfold load_messages at hload
    rw [if_pos hlen, hparse] at hload
    simpa using hload.symm
  intro d hd
  have h := check_messages_run_delivered_gt hp parse st texts d hd
  rw [hst] at h
  simpa using h

/-- Concrete instance of the C8 theorem: persisted maximum 100; the run's
snapshot repeats the old message and adds one at 150; only timestamps
above 100 can be delivered. -/
theorem C8_no_redelivery_after_restart_witness :
    msgs_max_millis [("100", ("old" : String))] < 150 :=
  C8_no_redelivery_after_restart true
    (fun s => if s = "p" then some [("100", "old")]
      else if s = "t" then some [("100", "old"), ("150", "new")] else none)
    "p" [("100", "old")] ["t"] ⟨100, "p"⟩ (by decide) rfl (by decide)
    (150, "new") (by decide)

/-- C9: with no event handler registered, a historic-trades read of
non-empty content differing from the last-seen trades string reaches the
unguarded dispatch `self.event_handler.on_historic_trades()`: the
attribute access on `None` raises after the last-seen string and the
trades store were updated, the polling thread terminates, and the
historic-trades file is not deleted. -/
theorem C9_historic_trades_crash {δ θ : Type}
    (parseHD : String → Option (List (String × δ)))
    (parseHT : String → Option θ) (st : HistState δ θ)
    (textHD textHT : String) (d : θ)
    (hhd : strippedEmpty textHD = true)
    (hne : strippedEmpty textHT = false)
    (hdiff : textHT ≠ st.last_historic_trades_str)
    (hparse : parseHT textHT = some d) :
    (check_historic_data_cycle false parseHD parseHT st textHD textHT).crashed = true ∧
    (check_historic_data_cycle false parseHD parseHT st textHD textHT).removed_ht = false ∧
    (check_historic_data_cycle false parseHD parseHT st textHD textHT).ht_event = false ∧
    (check_historic_data_cycle false parseHD parseHT st textHD
        textHT).state.last_historic_trades_str = textHT ∧
    (check_historic_data_cycle false parseHD parseHT st textHD
        textHT).state.historic_trades = d := by
  have hb : (textHT == st.last_historic_trades_str) = false :=
    beq_eq_false_iff_ne.mpr hdiff
  simp [check_historic_data_cycle, ht_branch, hhd, hne, hb, hparse, bne]

/-- Concrete instance of the C9 theorem: empty historic-data file, fresh
non-empty trades content, no handler. -/
theorem C9_historic_trades_crash_witness :
    (check_historic_data_cycle false (fun _ => none)
        (fun s => if s = "tr" then some 7 else none)
        (⟨"", "", [], 0⟩ : HistState Nat Nat) "" "tr").crashed = true ∧
    (check_historic_data_cycle false (fun _ => none)
        (fun s => if s = "tr" then some 7 else none)
        (⟨"", "", [], 0⟩ : HistState Nat Nat) "" "tr").removed_ht = false ∧
    (check_historic_data_cycle false (fun _ => none)
        (fun s => if s = "tr" then some 7 else none)
        (⟨"", "", [], 0⟩ : HistState Nat Nat) "" "tr").ht_event = false ∧
    (check_historic_data_cycle false (fun _ => none)
        (fun s => if s = "tr" then some 7 else none)
        (⟨"", "", [], 0⟩ : HistState Nat Nat) "" "tr").state.last_historic_trades_str = "tr" ∧
    (check_historic_data_cycle false (fun _ => none)
        (fun s => if s = "tr" then some 7 else none)
        (⟨"", "", [], 0⟩ : HistState Nat Nat) "" "tr").state.historic_trades = 7 :=
  C9_historic_trades_crash (fun _ => none)
    (fun s => if s = "tr" then some 7 else none) ⟨"", "", [], 0⟩ "" "tr" 7
    (by decide) (by decide) (by decide) rfl

/-- C10: the counter is incremented before any slot write is attempted,
so a send abandoned at the retry deadline (every slot occupied the whole
window) still consumes an id: the new counter value is (cid + 1) mod
100000 regardless of the outcome, while nothing is written — ids written
to slot files can therefore have gaps, and an id is no evidence of
delivery. -/
theorem C10_id_consumed_without_write (occ wok : Nat → Nat → Bool)
    (n delay maxRetry now0 : Nat) (hdelay : 0 < delay)
    (cid : Nat) (command content : String) :
    (send_command occ wok n delay maxRetry now0 hdelay cid command content).command_id
      = (cid + 1) % 100000 ∧
    ((∀ t i, i < n → occ t i = true) →
      (send_command occ wok n delay maxRetry now0 hdelay cid command content).write
        = none) := by
  refine ⟨rfl, fun hocc => ?_⟩
  have h := send_loop_all_occ occ wok n delay (now0 + maxRetry) hdelay hocc now0
  show ((send_loop occ wok n delay (now0 + maxRetry) hdelay now0).1.map _) = none
  rw [h]
  rfl

/-- Concrete instance of the C10 theorem: all 50 slots occupied; the id
is consumed although nothing is written. -/
theorem C10_id_consumed_without_write_witness :
    (send_command (fun _ _ => true) (fun _ _ => true) 50 1 4 0 Nat.one_pos
      7 "MODIFY_ORDER" "1,0,0,0,0").command_id = (7 + 1) % 100000 ∧
    (send_command (fun _ _ => true) (fun _ _ => true) 50 1 4 0 Nat.one_pos
      7 "MODIFY_ORDER" "1,0,0,0,0").write = none :=
  ⟨(C10_id_consumed_without_write (fun _ _ => true) (fun _ _ => true)
      50 1 4 0 Nat.one_pos 7 "MODIFY_ORDER" "1,0,0,0,0").1,
    (C10_id_consumed_without_write (fun _ _ => true) (fun _ _ => true)
      50 1 4 0 Nat.one_pos 7 "MODIFY_ORDER" "1,0,0,0,0").2 fun _ _ _ => rfl⟩

end MqlClient
